import Mathlib

/-!
Shallow embedding of the Go package safeish (file unsafe.go): zero-copy
memory-reinterpretation helpers. Addresses, sizes, lengths and capacities
are natural numbers; memory is a function from byte addresses to byte
values. Where the code relies on 64-bit uintptr wraparound (Index), the
arithmetic is taken modulo 2 ^ 64 explicitly.
-/

namespace Safeish

/-- Go slice header, as laid out by the local sliceHeader struct used in
SliceCast and SliceCastPtr: base address, length and capacity. -/
structure sliceHeader where
  data : Nat
  len : Nat
  cap : Nat
  deriving DecidableEq

/-- The Go nil slice: zero base address, zero length, zero capacity. -/
def nilSlice : sliceHeader := ⟨0, 0, 0⟩

/-- Embedding of SliceCast (unsafe.go, lines 38-72). sizeSrc and sizeDst
stand for unsafe.Sizeof of the source and destination element types. The
uintptr divisions require nonzero sizes in Go (a zero-sized element type
would raise a runtime division-by-zero panic there), so the theorems about
this function assume both sizes positive. -/
def SliceCast (sizeSrc sizeDst : Nat) (x : sliceHeader) : sliceHeader :=
  if x.cap = 0 then nilSlice
  else if sizeDst ≤ sizeSrc then
    ⟨x.data, x.len * (sizeSrc / sizeDst), x.cap * (sizeSrc / sizeDst)⟩
  else
    ⟨x.data, x.len / (sizeDst / sizeSrc), x.cap / (sizeDst / sizeSrc)⟩

/-- Payload of the panic raised by SliceCastPtr (unsafe.go, lines 139-143):
the Sprintf message carries the computed byte capacity of the slice
(sizeof SrcE times cap) and the byte size of one destination element. -/
structure CastPtrError where
  szBytes : Nat
  dstBytes : Nat
  deriving DecidableEq

/-- Embedding of SliceCastPtr (unsafe.go, lines 121-150). The Except error
models the panic; the Option models the possibly nil returned pointer
(none is Go nil, some a is a pointer to address a). -/
def SliceCastPtr (sizeSrc sizeDst : Nat) (x : sliceHeader) :
    Except CastPtrError (Option Nat) :=
  if x.cap = 0 then .ok none
  else if sizeSrc ≠ sizeDst then
    if sizeSrc * x.cap < sizeDst then .error ⟨sizeSrc * x.cap, sizeDst⟩
    else .ok (some x.data)
  else .ok (some x.data)

/-- Embedding of Cast (unsafe.go, lines 22-24). A value is modelled by its
byte representation, a list of bytes of length sizeof of its type; the
expression star-Dst-pointer-of-address-of-x reads the first sizeof Dst
bytes at the address of x. -/
def Cast (sizeDst : Nat) (x : List Nat) : List Nat := List.take sizeDst x

/-- Conversion uintptr(idx) for an integer idx of any width and signedness
(unsafe.go, line 77): reduction modulo 2 ^ 64, so negative indices wrap. -/
def uintptrOfInt (idx : Int) : Nat := (idx % (2 ^ 64 : Int)).toNat

/-- Embedding of Index (unsafe.go, lines 76-79). Taking the address of
element 0 is a Go bounds-checked indexing that panics on an empty slice
(modelled none); otherwise the result is the base address plus
sizeof E times uintptr(idx), with uintptr arithmetic wrapping mod 2 ^ 64.
No check of idx against the length or capacity is performed. -/
def Index (sizeE : Nat) (x : sliceHeader) (idx : Int) : Option Nat :=
  if x.len = 0 then none
  else some ((x.data + (sizeE * uintptrOfInt idx) % 2 ^ 64) % 2 ^ 64)

/-- Embedding of AsBytes (unsafe.go, lines 83-85): unsafe.Slice over the
pointed-to value gives a byte slice with the same base address and with
length and capacity both equal to sizeof E. No bytes are copied. -/
def AsBytes (sizeE : Nat) (ptr : Nat) : sliceHeader := ⟨ptr, sizeE, sizeE⟩

/-- Byte representation of the value of size bytes stored at addr. -/
def valueBytes (mem : Nat → Nat) (addr size : Nat) : List Nat :=
  (List.range size).map fun i => mem (addr + i)

/-- Bytes covered by the length portion of a slice whose elements are
sizeE bytes wide: the len times sizeE bytes starting at the base address. -/
def sliceContent (mem : Nat → Nat) (x : sliceHeader) (sizeE : Nat) : List Nat :=
  (List.range (x.len * sizeE)).map fun i => mem (x.data + i)

/-- Forward byte scan underlying strings.IndexByte: starting at position i
with rem bytes left, return the position of the first zero byte, or none. -/
def indexByteFrom (mem : Nat → Nat) (ptr : Nat) : Nat → Nat → Option Nat
  | _, 0 => none
  | i, rem + 1 =>
    if mem (ptr + i) = 0 then some i else indexByteFrom mem ptr (i + 1) rem

/-- Model of strings.IndexByte(t, 0) for the string t viewing the len bytes
at ptr (unsafe.go, line 107): index of the first zero byte, none for -1. -/
def indexByte (mem : Nat → Nat) (ptr len : Nat) : Option Nat :=
  indexByteFrom mem ptr 0 len

/-- Loop of FindNull (unsafe.go, lines 104-114): scan the safeLen bytes at
ptr for a zero byte; if none, advance to the next page and continue with
chunks of pageSize = 4096. The Go loop is unbounded; fuel bounds the number
of iterations in the model, with none meaning the bound was exhausted. -/
def findNullAux (mem : Nat → Nat) : Nat → Nat → Nat → Nat → Option Nat
  | _, _, _, 0 => none
  | ptr, offset, safeLen, fuel + 1 =>
    match indexByte mem ptr safeLen with
    | some i => some (offset + i)
    | none => findNullAux mem (ptr + safeLen) (offset + safeLen) 4096 fuel

/-- Embedding of FindNull (unsafe.go, lines 87-115). The pointer argument
is none for a Go nil pointer. The first chunk length is
pageSize - ptr mod pageSize, the bytes remaining in the starting page. -/
def FindNull (mem : Nat → Nat) (s : Option Nat) (fuel : Nat) : Option Nat :=
  match s with
  | none => some 0
  | some p => findNullAux mem p 0 (4096 - p % 4096) fuel

/-- Trace of the chunks read by the loop of FindNull: the (address, length)
pair of each iteration of findNullAux, in order, including the iteration
that finds the zero byte. -/
def findNullChunks (mem : Nat → Nat) : Nat → Nat → Nat → List (Nat × Nat)
  | _, _, 0 => []
  | ptr, safeLen, fuel + 1 =>
    (ptr, safeLen) ::
      match indexByte mem ptr safeLen with
      | some _ => []
      | none => findNullChunks mem (ptr + safeLen) 4096 fuel

theorem mem_of_idx {α : Type} (a : α) :
    ∀ (l : List α) (i : Nat), l[i]? = some a → a ∈ l := by
  intro l
  induction l with
  | nil => intro i h; simp at h
  | cons x xs ih =>
    intro i h
    cases i with
    | zero =>
      simp at h
      subst h
      exact List.mem_cons_self x xs
    | succ j =>
      simp at h
      exact List.mem_cons_of_mem _ (ih j h)

/-- C1: SliceCast returns nil on zero capacity; otherwise it rescales the
length and capacity by the integer-divided size ratio, multiplying when
sizeSrc is at least sizeDst and dividing in the other direction, over the
same base address. Sizes are positive (a zero element size would make the
Go division panic). -/
theorem sliceCast_spec (sizeSrc sizeDst : Nat) (x : sliceHeader)
    (hs : 0 < sizeSrc) (hd : 0 < sizeDst) :
    (x.cap = 0 → SliceCast sizeSrc sizeDst x = nilSlice)
    ∧ (x.cap ≠ 0 → sizeDst ≤ sizeSrc →
        SliceCast sizeSrc sizeDst x =
          ⟨x.data, x.len * (sizeSrc / sizeDst), x.cap * (sizeSrc / sizeDst)⟩)
    ∧ (x.cap ≠ 0 → sizeSrc < sizeDst →
        SliceCast sizeSrc sizeDst x =
          ⟨x.data, x.len / (sizeDst / sizeSrc), x.cap / (sizeDst / sizeSrc)⟩) := by
  refine ⟨fun h => ?_, fun h hle => ?_, fun h hlt => ?_⟩
  · simp [SliceCast, h]
  · simp [SliceCast, h, hle]
  · simp [SliceCast, h, Nat.not_le.mpr hlt]

theorem sliceCast_spec_witness :
    ((⟨100, 2, 3⟩ : sliceHeader).cap ≠ 0)
    ∧ SliceCast 4 2 ⟨100, 2, 3⟩ = ⟨100, 2 * (4 / 2), 3 * (4 / 2)⟩ :=
  ⟨by decide, (sliceCast_spec 4 2 ⟨100, 2, 3⟩ (by decide) (by decide)).2.1
    (by decide) (by decide)⟩

/-- C2: evaluation of SliceCast at a non-integer ratio with sizeSrc below
sizeDst. A slice of one 2-byte element cast to a 3-byte element type keeps
capacity 1 div (3 div 2) = 1, so the resulting view spans 3 bytes over a
2-byte buffer: the returned capacity times sizeDst exceeds the original
capacity times sizeSrc, an over-read. -/
theorem sliceCast_overread :
    SliceCast 2 3 ⟨0, 1, 1⟩ = ⟨0, 1, 1⟩
    ∧ ¬ ((SliceCast 2 3 ⟨0, 1, 1⟩).cap * 3 ≤ 1 * 2) := by
  exact ⟨by decide, by decide⟩

/-- C10: SliceCast preserves the slice invariant len at most cap: the nil
branch gives 0 and 0, and both rescaling branches apply the same
multiplication or floor division to length and capacity. -/
theorem sliceCast_len_le_cap (sizeSrc sizeDst : Nat) (x : sliceHeader)
    (hs : 0 < sizeSrc) (hd : 0 < sizeDst) (h : x.len ≤ x.cap) :
    (SliceCast sizeSrc sizeDst x).len ≤ (SliceCast sizeSrc sizeDst x).cap := by
  unfold SliceCast
  split
  · exact Nat.le_refl _
  · split
    · exact Nat.mul_le_mul_right _ h
    · exact Nat.div_le_div_right h

theorem sliceCast_len_le_cap_witness :
    (SliceCast 4 2 ⟨0, 1, 2⟩).len ≤ (SliceCast 4 2 ⟨0, 1, 2⟩).cap :=
  sliceCast_len_le_cap 4 2 ⟨0, 1, 2⟩ (by decide) (by decide) (by decide)

/-- C3: SliceCastPtr returns nil on zero capacity; with positive capacity
it panics exactly when the element sizes differ and the byte span of the
slice is smaller than one destination element, the panic payload carrying
the computed byte sizes; in every other case, equal sizes included, it
returns the base address. -/
theorem sliceCastPtr_spec (sizeSrc sizeDst : Nat) (x : sliceHeader) :
    (x.cap = 0 → SliceCastPtr sizeSrc sizeDst x = .ok none)
    ∧ (0 < x.cap →
        (SliceCastPtr sizeSrc sizeDst x = .error ⟨sizeSrc * x.cap, sizeDst⟩
          ↔ sizeSrc ≠ sizeDst ∧ sizeSrc * x.cap < sizeDst)
        ∧ (¬(sizeSrc ≠ sizeDst ∧ sizeSrc * x.cap < sizeDst) →
            SliceCastPtr sizeSrc sizeDst x = .ok (some x.data))) := by
  constructor
  · intro h; simp [SliceCastPtr, h]
  · intro hc
    have hc0 : ¬ x.cap = 0 := by omega
    by_cases hne : sizeSrc = sizeDst
    · exact ⟨by simp [SliceCastPtr, hc0, hne], fun _ => by simp [SliceCastPtr, hc0, hne]⟩
    · by_cases hlt : sizeSrc * x.cap < sizeDst
      · exact ⟨by simp [SliceCastPtr, hc0, hne, hlt],
          fun hcon => absurd ⟨hne, hlt⟩ hcon⟩
      · exact ⟨by simp [SliceCastPtr, hc0, hne, hlt],
          fun _ => by simp [SliceCastPtr, hc0, hne, hlt]⟩

theorem sliceCastPtr_spec_witness :
    SliceCastPtr 4 4 ⟨7, 0, 0⟩ = .ok none
    ∧ SliceCastPtr 2 8 ⟨5, 1, 3⟩ = .error ⟨2 * 3, 8⟩
    ∧ SliceCastPtr 4 2 ⟨5, 1, 3⟩ = .ok (some 5) :=
  ⟨(sliceCastPtr_spec 4 4 ⟨7, 0, 0⟩).1 rfl,
   ((sliceCastPtr_spec 2 8 ⟨5, 1, 3⟩).2 (by decide)).1.mpr ⟨by decide, by decide⟩,
   ((sliceCastPtr_spec 4 2 ⟨5, 1, 3⟩).2 (by decide)).2 (by decide)⟩

/-- C5: under the precondition sizeDst at most sizeof Src, Cast yields the
value whose bytes are exactly the first sizeDst bytes of the byte
representation of x; casting a value to its own type is the identity. -/
theorem cast_spec (sizeDst : Nat) (x : List Nat) (h : sizeDst ≤ x.length) :
    ((Cast sizeDst x).length = sizeDst
      ∧ ∀ k, k < sizeDst → (Cast sizeDst x).getD k 0 = x.getD k 0)
    ∧ Cast x.length x = x := by
  refine ⟨⟨?_, ?_⟩, ?_⟩
  · simp [Cast, List.length_take, Nat.min_eq_left h]
  · intro k hk
    simp [Cast, List.getD_eq_getElem?_getD, List.getElem?_take, hk]
  · simp [Cast]

theorem cast_spec_witness :
    (Cast 2 [7, 8, 9]).length = 2
    ∧ (Cast 2 [7, 8, 9]).getD 1 0 = ([7, 8, 9] : List Nat).getD 1 0
    ∧ Cast ([7, 8, 9] : List Nat).length [7, 8, 9] = [7, 8, 9] :=
  ⟨(cast_spec 2 [7, 8, 9] (by decide)).1.1,
   (cast_spec 2 [7, 8, 9] (by decide)).1.2 1 (by decide),
   (cast_spec 2 [7, 8, 9] (by decide)).2⟩

/-- C7: on a non-empty slice, Index returns the base address plus
idx times sizeof E in wraparound 64-bit address arithmetic, for an index
of any signedness, with no check of idx against length or capacity. -/
theorem index_spec (sizeE : Nat) (x : sliceHeader) (idx : Int)
    (h : 0 < x.len) :
    Index sizeE x idx =
      some ((x.data + sizeE * uintptrOfInt idx) % 2 ^ 64) := by
  unfold Index
  rw [if_neg (by omega)]
  rw [Nat.add_mod_mod]

theorem index_spec_witness :
    Index 4 ⟨1000, 2, 3⟩ (-1) =
      some ((1000 + 4 * uintptrOfInt (-1)) % 2 ^ 64) :=
  index_spec 4 ⟨1000, 2, 3⟩ (-1) (by decide)

/-- C8: AsBytes of a pointer to a value of size sizeE is a byte slice of
length and capacity sizeE over the same address (no copy), whose bytes are
exactly the byte representation of the pointed-to value, position by
position, padding included as stored. -/
theorem asBytes_spec (sizeE ptr : Nat) (mem : Nat → Nat) :
    (AsBytes sizeE ptr).len = sizeE
    ∧ (AsBytes sizeE ptr).cap = sizeE
    ∧ (AsBytes sizeE ptr).data = ptr
    ∧ sliceContent mem (AsBytes sizeE ptr) 1 = valueBytes mem ptr sizeE
    ∧ ∀ k, k < sizeE →
        (sliceContent mem (AsBytes sizeE ptr) 1).getD k 0 = mem (ptr + k) := by
  refine ⟨rfl, rfl, rfl, ?_, ?_⟩
  · simp [sliceContent, valueBytes, AsBytes]
  · intro k hk
    simp [sliceContent, AsBytes, List.getD_eq_getElem?_getD, hk]

theorem asBytes_spec_witness :
    (AsBytes 3 100).len = 3
    ∧ (AsBytes 3 100).cap = 3
    ∧ (AsBytes 3 100).data = 100
    ∧ sliceContent (fun a => a + 1) (AsBytes 3 100) 1 =
        valueBytes (fun a => a + 1) 100 3
    ∧ (sliceContent (fun a => a + 1) (AsBytes 3 100) 1).getD 2 0 =
        (fun a => a + 1) (100 + 2) :=
  ⟨(asBytes_spec 3 100 (fun a => a + 1)).1,
   (asBytes_spec 3 100 (fun a => a + 1)).2.1,
   (asBytes_spec 3 100 (fun a => a + 1)).2.2.1,
   (asBytes_spec 3 100 (fun a => a + 1)).2.2.2.1,
   (asBytes_spec 3 100 (fun a => a + 1)).2.2.2.2 2 (by decide)⟩

theorem indexByteFrom_some (mem : Nat → Nat) (ptr : Nat) :
    ∀ (rem i k : Nat), k < rem → (∀ j, j < k → mem (ptr + i + j) ≠ 0) →
      mem (ptr + i + k) = 0 → indexByteFrom mem ptr i rem = some (i + k) := by
  intro rem
  induction rem with
  | zero => intro i k hk; omega
  | succ r ih =>
    intro i k hk hnz hz
    by_cases h0 : mem (ptr + i) = 0
    · have hk0 : k = 0 := by
        by_contra hne
        have := hnz 0 (by omega)
        simp at this
        exact this h0
      subst hk0
      simp [indexByteFrom, h0]
    · cases k with
      | zero =>
        exfalso
        apply h0
        simpa using hz
      | succ k0 =>
        have hrec : indexByteFrom mem ptr (i + 1) r = some ((i + 1) + k0) := by
          apply ih (i + 1) k0 (by omega)
          · intro j hj
            have heq : ptr + (i + 1) + j = ptr + i + (j + 1) := by omega
            rw [heq]
            exact hnz (j + 1) (by omega)
          · have heq : ptr + (i + 1) + k0 = ptr + i + (k0 + 1) := by omega
            rw [heq]
            exact hz
        simp [indexByteFrom, h0, hrec]
        omega

theorem indexByteFrom_none (mem : Nat → Nat) (ptr : Nat) :
    ∀ (rem i : Nat), (∀ j, j < rem → mem (ptr + i + j) ≠ 0) →
      indexByteFrom mem ptr i rem = none := by
  intro rem
  induction rem with
  | zero => intro i _; simp [indexByteFrom]
  | succ r ih =>
    intro i hnz
    have h0 : mem (ptr + i) ≠ 0 := by
      have := hnz 0 (by omega)
      simpa using this
    have hrec : indexByteFrom mem ptr (i + 1) r = none := by
      apply ih
      intro j hj
      have heq : ptr + (i + 1) + j = ptr + i + (j + 1) := by omega
      rw [heq]
      exact hnz (j + 1) (by omega)
    simp [indexByteFrom, h0, hrec]

theorem indexByte_some (mem : Nat → Nat) (ptr len k : Nat) (hk : k < len)
    (hnz : ∀ j, j < k → mem (ptr + j) ≠ 0) (hz : mem (ptr + k) = 0) :
    indexByte mem ptr len = some k := by
  have := indexByteFrom_some mem ptr len 0 k hk
    (by intro j hj; simpa using hnz j hj) (by simpa using hz)
  simpa [indexByte] using this

theorem indexByte_none (mem : Nat → Nat) (ptr len : Nat)
    (hnz : ∀ j, j < len → mem (ptr + j) ≠ 0) :
    indexByte mem ptr len = none := by
  have := indexByteFrom_none mem ptr len 0
    (by intro j hj; simpa using hnz j hj)
  simpa [indexByte] using this

theorem findNullAux_found (mem : Nat → Nat) :
    ∀ (fuel ptr offset safeLen k : Nat), 1 ≤ safeLen →
      (∀ j, j < k → mem (ptr + j) ≠ 0) → mem (ptr + k) = 0 → k < fuel →
      findNullAux mem ptr offset safeLen fuel = some (offset + k) := by
  intro fuel
  induction fuel with
  | zero => intro ptr offset safeLen k _ _ _ hf; omega
  | succ f ih =>
    intro ptr offset safeLen k hs hnz hz hf
    by_cases hlt : k < safeLen
    · have hidx : indexByte mem ptr safeLen = some k :=
        indexByte_some mem ptr safeLen k hlt hnz hz
      simp [findNullAux, hidx]
    · have hle : safeLen ≤ k := by omega
      have hidx : indexByte mem ptr safeLen = none := by
        apply indexByte_none
        intro j hj
        exact hnz j (by omega)
      have hrec : findNullAux mem (ptr + safeLen) (offset + safeLen) 4096 f =
          some ((offset + safeLen) + (k - safeLen)) := by
        apply ih (ptr + safeLen) (offset + safeLen) 4096 (k - safeLen) (by omega)
        · intro j hj
          have heq : ptr + safeLen + j = ptr + (safeLen + j) := by omega
          rw [heq]
          exact hnz (safeLen + j) (by omega)
        · have heq : ptr + safeLen + (k - safeLen) = ptr + k := by omega
          rw [heq]
          exact hz
        · omega
      simp [findNullAux, hidx, hrec]
      omega

/-- C4: FindNull on a nil pointer returns 0 for every memory, reading
nothing; on a pointer to memory whose first zero byte sits at offset k, it
returns exactly k, page boundaries notwithstanding, whenever the fuel
bound exceeds k (the Go loop is unbounded, so any sufficient bound
witnesses its result). -/
theorem findNull_spec (mem : Nat → Nat) (fuel : Nat) :
    FindNull mem none fuel = some 0
    ∧ ∀ p k : Nat, (∀ j, j < k → mem (p + j) ≠ 0) → mem (p + k) = 0 →
        k < fuel → FindNull mem (some p) fuel = some k := by
  constructor
  · rfl
  · intro p k hnz hz hf
    have hs : 1 ≤ 4096 - p % 4096 := by omega
    have := findNullAux_found mem fuel p 0 (4096 - p % 4096) k hs hnz hz hf
    simpa [FindNull] using this

theorem findNull_spec_witness :
    FindNull (fun a => if a = 4100 then 0 else 1) none 11 = some 0
    ∧ FindNull (fun a => if a = 4100 then 0 else 1) (some 4090) 11 = some 10 :=
  ⟨(findNull_spec (fun a => if a = 4100 then 0 else 1) 11).1,
   (findNull_spec (fun a => if a = 4100 then 0 else 1) 11).2 4090 10
     (by decide) (by decide) (by decide)⟩

theorem findNullChunks_aligned (mem : Nat → Nat) :
    ∀ (fuel ptr : Nat), ptr % 4096 = 0 →
      ∀ cl ∈ findNullChunks mem ptr 4096 fuel, cl.1 % 4096 = 0 ∧ cl.2 = 4096 := by
  intro fuel
  induction fuel with
  | zero => intro ptr _ cl hcl; simp [findNullChunks] at hcl
  | succ f ih =>
    intro ptr hp cl hcl
    rw [findNullChunks] at hcl
    rcases List.mem_cons.mp hcl with hhd | htl
    · subst hhd; exact ⟨hp, rfl⟩
    · cases hidx : indexByte mem ptr 4096 with
      | some i => rw [hidx] at htl; simp at htl
      | none =>
        rw [hidx] at htl
        exact ih (ptr + 4096) (by omega) cl htl

/-- C9: every chunk scanned by the loop of FindNull stays inside one
4096-byte page: the first chunk starts at the pointer and is exactly
min 4096 (4096 - address mod 4096) bytes, the bytes left in the starting
page, and every later chunk starts at a page boundary and is exactly 4096
bytes long. -/
theorem findNull_chunks_spec (mem : Nat → Nat) (p fuel : Nat) :
    (∀ cl ∈ findNullChunks mem p (4096 - p % 4096) fuel,
        cl.1 % 4096 + cl.2 ≤ 4096)
    ∧ (∀ cl, (findNullChunks mem p (4096 - p % 4096) fuel).head? = some cl →
        cl = (p, min 4096 (4096 - p % 4096)))
    ∧ (∀ i cl, 1 ≤ i →
        (findNullChunks mem p (4096 - p % 4096) fuel)[i]? = some cl →
        cl.1 % 4096 = 0 ∧ cl.2 = 4096) := by
  cases fuel with
  | zero =>
    refine ⟨?_, ?_, ?_⟩
    · intro cl hcl; simp [findNullChunks] at hcl
    · intro cl hcl; simp [findNullChunks] at hcl
    · intro i cl _ hcl; simp [findNullChunks] at hcl
  | succ f =>
    have hpage : (p + (4096 - p % 4096)) % 4096 = 0 := by omega
    have htail : ∀ cl ∈
        (match indexByte mem p (4096 - p % 4096) with
          | some _ => ([] : List (Nat × Nat))
          | none => findNullChunks mem (p + (4096 - p % 4096)) 4096 f),
        cl.1 % 4096 = 0 ∧ cl.2 = 4096 := by
      cases hidx : indexByte mem p (4096 - p % 4096) with
      | some i => intro cl hcl; simp at hcl
      | none =>
        intro cl hcl
        exact findNullChunks_aligned mem f (p + (4096 - p % 4096)) hpage cl hcl
    refine ⟨?_, ?_, ?_⟩
    · intro cl hcl
      rw [findNullChunks] at hcl
      rcases List.mem_cons.mp hcl with hhd | htl
      · subst hhd
        simp only []
        omega
      · have := htail cl htl
        omega
    · intro cl hcl
      rw [findNullChunks] at hcl
      simp at hcl
      subst hcl
      have : min 4096 (4096 - p % 4096) = 4096 - p % 4096 := by omega
      rw [this]
    · intro i cl hi hcl
      rw [findNullChunks] at hcl
      cases i with
      | zero => omega
      | succ j =>
        rw [List.getElem?_cons_succ] at hcl
        exact htail cl (mem_of_idx cl _ j hcl)

theorem findNull_chunks_spec_witness :
    ((4090, 6) : Nat × Nat) = (4090, min 4096 (4096 - 4090 % 4096))
    ∧ ((4096, 4096) : Nat × Nat).1 % 4096 = 0
    ∧ ((4096, 4096) : Nat × Nat).2 = 4096 :=
  ⟨(findNull_chunks_spec (fun a => if a < 4097 then 1 else 0) 4090 2).2.1
      (4090, 6) (by decide),
   (findNull_chunks_spec (fun a => if a < 4097 then 1 else 0) 4090 2).2.2
      1 (4096, 4096) (by decide) (by decide)⟩

/-- C6: for an integer ratio a = k * b of the element sizes, SliceCast
multiplies the length and capacity by k, covers byte-for-byte the same
contents, and casting the result back to the source element size recovers
the original length and capacity exactly; concretely, a byte slice of
length 32 and capacity 60 cast to 8-byte elements has length 4 and
capacity 7. -/
theorem sliceCast_ratio_law (a b k n c d : Nat) (mem : Nat → Nat)
    (hb : 0 < b) (hk : 0 < k) (hab : a = k * b) (hnc : n ≤ c) :
    (SliceCast a b ⟨d, n, c⟩).len = n * k
    ∧ (SliceCast a b ⟨d, n, c⟩).cap = c * k
    ∧ sliceContent mem (SliceCast a b ⟨d, n, c⟩) b = sliceContent mem ⟨d, n, c⟩ a
    ∧ (SliceCast b a (SliceCast a b ⟨d, n, c⟩)).len = n
    ∧ (SliceCast b a (SliceCast a b ⟨d, n, c⟩)).cap = c
    ∧ SliceCast 1 8 ⟨d, 32, 60⟩ = ⟨d, 4, 7⟩ := by
  have hconc : SliceCast 1 8 ⟨d, 32, 60⟩ = ⟨d, 4, 7⟩ := by
    norm_num [SliceCast]
  have hdiv : a / b = k := by rw [hab]; exact Nat.mul_div_left k hb
  have hba : b ≤ a := by
    rw [hab]
    calc b = 1 * b := (Nat.one_mul b).symm
      _ ≤ k * b := Nat.mul_le_mul_right b hk
  by_cases hc : c = 0
  · have hn : n = 0 := by omega
    subst hc
    subst hn
    refine ⟨?_, ?_, ?_, ?_, ?_, hconc⟩ <;> simp [SliceCast, nilSlice, sliceContent]
  · have h1 : SliceCast a b ⟨d, n, c⟩ = ⟨d, n * k, c * k⟩ := by
      simp [SliceCast, hc, hba, hdiv]
    have h3 : SliceCast b a ⟨d, n * k, c * k⟩ = ⟨d, n, c⟩ := by
      by_cases hk1 : k = 1
      · subst hk1
        have hab2 : a = b := by rw [hab]; ring
        subst hab2
        simp [SliceCast, hc, Nat.div_self hb]
      · have hlt : b < a := by
          rw [hab]
          calc b = 1 * b := (Nat.one_mul b).symm
            _ < 2 * b := by omega
            _ ≤ k * b := Nat.mul_le_mul_right b (by omega)
        have hck : ¬ c * k = 0 := Nat.mul_ne_zero hc (by omega)
        have e1 : n * k / k = n := Nat.mul_div_left n hk
        have e2 : c * k / k = c := Nat.mul_div_left c hk
        simp [SliceCast, hck, Nat.not_le.mpr hlt, hdiv, e1, e2]
    have h2 : n * k * b = n * a := by rw [hab]; ring
    refine ⟨?_, ?_, ?_, ?_, ?_, hconc⟩
    · rw [h1]
    · rw [h1]
    · simp [sliceContent, h1, h2]
    · rw [h1, h3]
    · rw [h1, h3]

theorem sliceCast_ratio_law_witness :
    (SliceCast 8 4 ⟨100, 3, 5⟩).len = 3 * 2
    ∧ (SliceCast 8 4 ⟨100, 3, 5⟩).cap = 5 * 2
    ∧ sliceContent (fun w => w) (SliceCast 8 4 ⟨100, 3, 5⟩) 4 =
        sliceContent (fun w => w) ⟨100, 3, 5⟩ 8
    ∧ (SliceCast 4 8 (SliceCast 8 4 ⟨100, 3, 5⟩)).len = 3
    ∧ (SliceCast 4 8 (SliceCast 8 4 ⟨100, 3, 5⟩)).cap = 5
    ∧ SliceCast 1 8 ⟨100, 32, 60⟩ = ⟨100, 4, 7⟩ :=
  sliceCast_ratio_law 8 4 2 3 5 100 (fun w => w)
    (by decide) (by decide) (by decide) (by decide)

end Safeish
